import Mathlib

/-!
Shallow embedding of `pyQME/tensors/markov/redfield.py` (class `RedfieldTensor`).

Numpy `complex128` values are modelled exactly by pairs of rationals (`CQ`);
all tensor algebra in the source is exact arithmetic on such values, so the
algebraic identities claimed by the spec are settled over `CQ`.  Arrays are
total functions out of `Fin n`; the `opt_einsum.contract` calls are translated
contraction by contraction into explicit `Finset` sums.
-/

/-- A complex number with rational real and imaginary parts: the exact model of
a numpy `complex128` scalar used by the Redfield tensor algebra. -/
@[ext]
structure CQ where
  re : ℚ
  im : ℚ
  deriving DecidableEq

namespace CQ

instance : Zero CQ := ⟨⟨0, 0⟩⟩
instance : One CQ := ⟨⟨1, 0⟩⟩
instance : Add CQ := ⟨fun x y => ⟨x.re + y.re, x.im + y.im⟩⟩
instance : Neg CQ := ⟨fun x => ⟨-x.re, -x.im⟩⟩
instance : Sub CQ := ⟨fun x y => ⟨x.re - y.re, x.im - y.im⟩⟩
instance : Mul CQ := ⟨fun x y => ⟨x.re * y.re - x.im * y.im, x.re * y.im + x.im * y.re⟩⟩

@[simp] theorem zero_re : (0 : CQ).re = 0 := rfl

@[simp] theorem zero_im : (0 : CQ).im = 0 := rfl

@[simp] theorem one_re : (1 : CQ).re = 1 := rfl

@[simp] theorem one_im : (1 : CQ).im = 0 := rfl

@[simp] theorem add_re (x y : CQ) : (x + y).re = x.re + y.re := rfl

@[simp] theorem add_im (x y : CQ) : (x + y).im = x.im + y.im := rfl

@[simp] theorem neg_re (x : CQ) : (-x).re = -x.re := rfl

@[simp] theorem neg_im (x : CQ) : (-x).im = -x.im := rfl

@[simp] theorem sub_re (x y : CQ) : (x - y).re = x.re - y.re := rfl

@[simp] theorem sub_im (x y : CQ) : (x - y).im = x.im - y.im := rfl

@[simp] theorem mul_re (x y : CQ) : (x * y).re = x.re * y.re - x.im * y.im := rfl

@[simp] theorem mul_im (x y : CQ) : (x * y).im = x.re * y.im + x.im * y.re := rfl

instance addCommGroup : AddCommGroup CQ :=
  { zero := (0 : CQ)
    add := (· + ·)
    neg := Neg.neg
    sub := Sub.sub
    nsmul := nsmulRec
    nsmul_zero := fun _ => rfl
    nsmul_succ := fun _ _ => rfl
    zsmul := zsmulRec
    zsmul_zero' := fun _ => rfl
    zsmul_succ' := fun _ _ => rfl
    zsmul_neg' := fun _ _ => rfl
    sub_eq_add_neg := by intros; ext <;> simp <;> ring
    add_assoc := by intros; ext <;> simp <;> ring
    zero_add := by intros; ext <;> simp
    add_zero := by intros; ext <;> simp
    add_comm := by intros; ext <;> simp <;> ring
    neg_add_cancel := by intros; ext <;> simp }

instance commRing : CommRing CQ :=
  { add := (· + ·)
    zero := (0 : CQ)
    neg := Neg.neg
    sub := Sub.sub
    nsmul := nsmulRec
    nsmul_zero := fun _ => rfl
    nsmul_succ := fun _ _ => rfl
    zsmul := zsmulRec
    zsmul_zero' := fun _ => rfl
    zsmul_succ' := fun _ _ => rfl
    zsmul_neg' := fun _ _ => rfl
    sub_eq_add_neg := by intros; ext <;> simp <;> ring
    add_assoc := by intros; ext <;> simp <;> ring
    zero_add := by intros; ext <;> simp
    add_zero := by intros; ext <;> simp
    add_comm := by intros; ext <;> simp <;> ring
    neg_add_cancel := by intros; ext <;> simp
    one := (1 : CQ)
    mul := (· * ·)
    left_distrib := by intros; ext <;> simp <;> ring
    right_distrib := by intros; ext <;> simp <;> ring
    zero_mul := by intros; ext <;> simp
    mul_zero := by intros; ext <;> simp
    mul_assoc := by intros; ext <;> simp <;> ring
    one_mul := by intros; ext <;> simp
    mul_one := by intros; ext <;> simp
    mul_comm := by intros; ext <;> simp <;> ring }

/-- Complex conjugation (numpy `conj`). -/
def conj (x : CQ) : CQ := ⟨x.re, -x.im⟩

@[simp] theorem conj_re (x : CQ) : (conj x).re = x.re := rfl

@[simp] theorem conj_im (x : CQ) : (conj x).im = -x.im := rfl

theorem conj_add (x y : CQ) : conj (x + y) = conj x + conj y := by ext <;> simp <;> ring

theorem conj_sub (x y : CQ) : conj (x - y) = conj x - conj y := by ext <;> simp <;> ring

theorem conj_mul (x y : CQ) : conj (x * y) = conj x * conj y := by ext <;> simp <;> ring

theorem conj_conj (x : CQ) : conj (conj x) = x := by ext <;> simp

theorem conj_zero : conj (0 : CQ) = 0 := by ext <;> simp

theorem conj_one : conj (1 : CQ) = 1 := by ext <;> simp

theorem conj_neg (x : CQ) : conj (-x) = -conj x := by ext <;> simp

theorem conj_sum {α : Type} (s : Finset α) (f : α → CQ) :
    conj (∑ x ∈ s, f x) = ∑ x ∈ s, conj (f x) := by
  classical
  induction s using Finset.induction_on with
  | empty => simp [conj_zero]
  | insert hx ih => rename_i a t; rw [Finset.sum_insert hx, Finset.sum_insert hx, conj_add, ih]

/-- Embedding of a real (rational) scalar into `CQ`; models numpy's implicit
promotion of real arrays entering a complex contraction. -/
def ofQ (q : ℚ) : CQ := ⟨q, 0⟩

@[simp] theorem ofQ_re (q : ℚ) : (ofQ q).re = q := rfl

@[simp] theorem ofQ_im (q : ℚ) : (ofQ q).im = 0 := rfl

theorem conj_ofQ (q : ℚ) : conj (ofQ q) = ofQ q := by ext <;> simp

theorem ofQ_zero : ofQ 0 = 0 := rfl

theorem ofQ_mul (a b : ℚ) : ofQ (a * b) = ofQ a * ofQ b := by ext <;> simp

end CQ

/-- A complex 4-index tensor of shape `dim⁴` (numpy array indexed `[a,b,c,d]`). -/
abbrev Tensor4 (n : ℕ) := Fin n → Fin n → Fin n → Fin n → CQ

/-- A complex vector of length `dim`. -/
abbrev CVec (n : ℕ) := Fin n → CQ

/-- The state a `RedfieldTensor` instance carries when its computational methods
run: the eigenvector matrix `U` (site × exciton), the projector tensor
`X[i,a,b]`, the energy-gap matrix `Om` set up by the parent class
(`Om[a,b] = E_a − E_b`, so that `Om.T[a,b] = w_ab = E_b − E_a`, matching the
docstring of `_evaluate_SD_in_freq`), the site-to-spectral-density map
`SD_id` (the list `SD_id_list`, one entry per site), the external evaluator
`specden` (`specden(freq_matrix, SD_id, imag)` returns a matrix of the same
shape), and the `secularize` flag fixed at construction. -/
structure RedfieldState (n : ℕ) where
  U : Fin n → Fin n → ℚ
  X : Fin n → Fin n → Fin n → ℚ
  Om : Fin n → Fin n → ℚ
  SD_id : Fin n → ℕ
  specden : (Fin n → Fin n → ℚ) → ℕ → Bool → (Fin n → Fin n → CQ)
  secularize : Bool

namespace RedfieldState

variable {n : ℕ}

/-- The transposed gap matrix `self.Om.T` passed to the evaluator at every one
of the four `self.specden(self.Om.T, ...)` call sites of the source. -/
def OmT (s : RedfieldState n) : Fin n → Fin n → ℚ := fun a b => s.Om b a

/-- The redundancy-free collection of spectral-density identifiers:
`[*set(SD_id_list)]` (the loop in the source accumulates commutatively, so the
unspecified Python `set` iteration order is irrelevant). -/
def sdIds (s : RedfieldState n) : Finset ℕ := Finset.image s.SD_id Finset.univ

/-- The mask of a spectral-density id `Z`:
`[chrom_idx for chrom_idx,x in enumerate(SD_id_list) if x == SD_id]`. -/
def mask (s : RedfieldState n) (Z : ℕ) : Finset (Fin n) :=
  Finset.univ.filter (fun i => s.SD_id i = Z)

/-- The squared eigenvector coefficients `coef2 = self.U**2`. -/
def coef2 (s : RedfieldState n) : Fin n → Fin n → ℚ := fun i a => (s.U i a) ^ 2

/-- The rate-matrix accumulation loop of `_calc_redfield_rates`:
`rates += contract('ia,ib,ab->ab', coef2[mask,:], coef2[mask,:], Cw_matrix)`
with `Cw_matrix = self.specden(self.Om.T, SD_id=SD_id, imag=False)`,
summed over the redundancy-free id list. -/
def ratesAcc (s : RedfieldState n) : Fin n → Fin n → CQ := fun a b =>
  ∑ Z ∈ sdIds s, ∑ i ∈ mask s Z,
    CQ.ofQ (coef2 s i a) * CQ.ofQ (coef2 s i b) * s.specden (OmT s) Z false a b

/-- The state of the rate matrix after `rates[np.diag_indices_from(rates)] = 0.0`. -/
def ratesDiagZeroed (s : RedfieldState n) : Fin n → Fin n → CQ := fun a b =>
  if a = b then 0 else ratesAcc s a b

/-- `_calc_redfield_rates`: accumulate over spectral densities, zero the
diagonal, then set `rates[a,a] = -np.sum(rates, axis=0)[a]` (column sums of the
diagonal-zeroed matrix). -/
def calc_redfield_rates (s : RedfieldState n) : Fin n → Fin n → CQ := fun a b =>
  if a = b then -(∑ c, ratesDiagZeroed s c b) else ratesDiagZeroed s a b

/-- The complex bath response `Cw_matrix = self.specden(self.Om.T, SD_id, imag=True)`
used by `_calc_redfield_tensor` and the reduced branch of `_calc_redfield_dephasing`. -/
def CwI (s : RedfieldState n) (Z : ℕ) : Fin n → Fin n → CQ :=
  s.specden (OmT s) Z true

/-- One loop iteration of the `GammF` accumulation in `_calc_redfield_tensor`:
`contract('iab,icd,ba->abcd', X[mask,:,:], X[mask,:,:], Cw_matrix/2)`. -/
def gammContrib (s : RedfieldState n) (Z : ℕ) : Tensor4 n := fun a b c d =>
  ∑ i ∈ mask s Z,
    CQ.ofQ (s.X i a b) * CQ.ofQ (s.X i c d) * (CwI s Z b a * CQ.ofQ (1 / 2))

/-- The accumulated correlation tensor `GammF` of `_calc_redfield_tensor`
(stored as `self.GammF` before the conversion to `RTen`). -/
def calc_GammF (s : RedfieldState n) : Tensor4 n := fun a b c d =>
  ∑ Z ∈ sdIds s, gammContrib s Z a b c d

/-- The contraction `tmpac = contract('ckka->ac', GammF)` of `_from_GammaF_to_RTen`. -/
def tmpac (G : Tensor4 n) : Fin n → Fin n → CQ := fun a c => ∑ k, G c k k a

/-- The identity matrix `eye = np.eye(self.dim)` (promoted to complex). -/
def eyeC (a b : Fin n) : CQ := if a = b then 1 else 0

/-- `_from_GammaF_to_RTen`:
`RTen = contract('cabd->abcd', GammF) + contract('dbca->abcd', GammF.conj())`
followed by
`RTen -= contract('ac,bd->abcd', eye, tmpac.conj()) + contract('ac,bd->abcd', tmpac, eye)`. -/
def from_GammaF_to_RTen (G : Tensor4 n) : Tensor4 n := fun a b c d =>
  (G c a b d + CQ.conj (G d b c a))
    - (eyeC a c * CQ.conj (tmpac G b d) + tmpac G a c * eyeC b d)

/-- Modelled from the spec: `self._secularize` is inherited from the external
`RelTensorMarkov` parent class (`SecularFilter`, not under `src/`); per §4.2 it
zeroes every tensor element whose frequency combination
`(E_a − E_b) − (E_c − E_d)` is non-zero, which in terms of the gap matrix
`Om[a,b] = E_a − E_b` reads `Om[a,b] − Om[c,d] ≠ 0` (exact-zero tolerance). -/
def secularFiltered (s : RedfieldState n) (R : Tensor4 n) : Tensor4 n := fun a b c d =>
  if s.Om a b - s.Om c d = 0 then R a b c d else 0

/-- `_calc_redfield_tensor`: build `GammF`, store it (`self.GammF = GammF`,
modelled as the second component of the result), convert it through
`_from_GammaF_to_RTen`, and secularize if the flag is set. -/
def calc_redfield_tensor (s : RedfieldState n) : Tensor4 n × Tensor4 n :=
  let G := calc_GammF s
  let R := from_GammaF_to_RTen G
  (if s.secularize then secularFiltered s R else R, G)

/-- The full-tensor branch of `_calc_redfield_dephasing` (case 1,
`hasattr(self,'GammF')`):
`dephasing = -(contract('aaaa->a', GammF) - contract('abba->a', GammF))`. -/
def dephasing_from_GammF (G : Tensor4 n) : CVec n := fun a =>
  -(G a a a a - ∑ b, G a b b a)

/-- One loop iteration of `GammF_aaaa` in the reduced branch of
`_calc_redfield_dephasing`: `contract('iaa,iaa,aa->a', X[mask], X[mask], Cw_matrix)`. -/
def gpopContrib (s : RedfieldState n) (Z : ℕ) : CVec n := fun a =>
  ∑ i ∈ mask s Z, CQ.ofQ (s.X i a a) * CQ.ofQ (s.X i a a) * CwI s Z a a

/-- One loop iteration of `GammF_abba` in the reduced branch of
`_calc_redfield_dephasing`: `contract('iab,iba,ba->ab', X[mask], X[mask], Cw_matrix)`. -/
def gcohContrib (s : RedfieldState n) (Z : ℕ) : Fin n → Fin n → CQ := fun a b =>
  ∑ i ∈ mask s Z, CQ.ofQ (s.X i a b) * CQ.ofQ (s.X i b a) * CwI s Z b a

/-- The reduced branch of `_calc_redfield_dephasing` (case 2, no cached
`GammF`).  The accumulators `GammF_aaaa`/`GammF_abba` are first bound at loop
index `SD_idx == 0`; when the redundancy-free id list is empty the loop body
never runs and the final line raises `UnboundLocalError`, modelled as `none`.
Otherwise `dephasing = -0.5*(GammF_aaaa - contract('ab->a', GammF_abba))`. -/
def dephasing_reduced (s : RedfieldState n) : Option (CVec n) :=
  if (sdIds s).Nonempty then
    some (fun a =>
      -(CQ.ofQ (1 / 2) *
        ((∑ Z ∈ sdIds s, gpopContrib s Z a) -
          ∑ b, ∑ Z ∈ sdIds s, gcohContrib s Z a b)))
  else none

/-- `_calc_redfield_dephasing`: the full-tensor branch when `self.GammF` exists
(the optional cached tensor), the reduced branch otherwise. -/
def calc_redfield_dephasing (s : RedfieldState n) (cachedG : Option (Tensor4 n)) :
    Option (CVec n) :=
  match cachedG with
  | some G => some (dephasing_from_GammF G)
  | none => dephasing_reduced s

/-- `calc_redf_xi`: lazily obtain the dephasing vector (using the cached
`self.dephasing` when present, else `_calc_redfield_dephasing()` — whose
exception propagates, modelled as `none`), then return
`xi_at = contract('a,t->at', self.dephasing, self.specden.time)`; the first
component of the result is the dephasing vector now cached on the instance,
the only mutation the method performs. -/
def calc_redf_xi (s : RedfieldState n) (cachedG : Option (Tensor4 n))
    (cachedD : Option (CVec n)) {m : ℕ} (time : Fin m → ℚ) :
    Option (CVec n × (Fin n → Fin m → CQ)) :=
  match cachedD with
  | some d => some (d, fun a t => d a * CQ.ofQ (time t))
  | none =>
    match calc_redfield_dephasing s cachedG with
    | some d => some (d, fun a t => d a * CQ.ofQ (time t))
    | none => none

end RedfieldState

open RedfieldState

/-- C1: for every complex 4-index tensor `Γ` of shape `dim⁴`, the conversion
`_from_GammaF_to_RTen` returns `R_full` with
`R_full[a,b,c,d] = Γ[c,a,b,d] + conj(Γ[d,b,c,a]) − δ(a,c)·conj(T[b,d]) − δ(b,d)·T[a,c]`
where `T[p,q] = Σ_e Γ[q,e,e,p]`, in exactly this index order. -/
theorem RTen_conversion_identity {n : ℕ} (G : Tensor4 n) (a b c d : Fin n) :
    from_GammaF_to_RTen G a b c d =
      G c a b d + CQ.conj (G d b c a)
        - (if a = c then CQ.conj (∑ e, G d e e b) else 0)
        - (if b = d then (∑ e, G c e e a) else 0) := by
  unfold from_GammaF_to_RTen tmpac eyeC
  by_cases hac : a = c <;> by_cases hbd : b = d <;> simp only [hac, hbd, if_pos, if_neg,
    ite_true, ite_false] <;> ring

/-- C4: every column of the output of `_calc_redfield_rates` sums to zero;
after accumulation the diagonal is zeroed and then set to
`R[a,a] = −Σ_b R[b,a]`, regardless of the evaluator's output values. -/
theorem rates_column_sum_zero {n : ℕ} (s : RedfieldState n) (a : Fin n) :
    ∑ b, calc_redfield_rates s b a = 0 := by
  classical
  have h0 : ratesDiagZeroed s a a = 0 := by simp [ratesDiagZeroed]
  have hsplit :
      calc_redfield_rates s a a + ∑ b ∈ Finset.univ.erase a, calc_redfield_rates s b a
        = ∑ b, calc_redfield_rates s b a :=
    Finset.add_sum_erase Finset.univ (fun b => calc_redfield_rates s b a)
      (Finset.mem_univ a)
  have h1 : calc_redfield_rates s a a = -(∑ c, ratesDiagZeroed s c a) := by
    simp [calc_redfield_rates]
  have h2 : ∀ b ∈ Finset.univ.erase a,
      calc_redfield_rates s b a = ratesDiagZeroed s b a := by
    intro b hb
    have hba : b ≠ a := Finset.ne_of_mem_erase hb
    simp [calc_redfield_rates, hba]
  have h3 : ∑ b ∈ Finset.univ.erase a, ratesDiagZeroed s b a
      = ∑ b, ratesDiagZeroed s b a := Finset.sum_erase _ h0
  rw [← hsplit, Finset.sum_congr rfl h2, h3, h1]
  exact neg_add_cancel _

/-- C5: off the diagonal (which lines 60–61 of the source subsequently
overwrite), `_calc_redfield_rates` returns exactly the accumulation
`R[a,b] = Σ_Z Σ_{i∈mask(Z)} U[i,a]²·U[i,b]²·Cw_Z[a,b]`, where `Z` ranges over
the distinct identifiers of `SD_id_list`, `mask(Z)` is the set of site indices
mapped to `Z`, and `Cw_Z` is the single evaluator call
`specden(Om.T, Z, imag=false)` on the pairwise-gap matrix. -/
theorem rates_accumulation_formula {n : ℕ} (s : RedfieldState n) (a b : Fin n)
    (hab : a ≠ b) :
    calc_redfield_rates s a b =
      ∑ Z ∈ Finset.image s.SD_id Finset.univ,
        ∑ i ∈ Finset.univ.filter (fun i => s.SD_id i = Z),
          CQ.ofQ ((s.U i a) ^ 2) * CQ.ofQ ((s.U i b) ^ 2) *
            s.specden (fun p q => s.Om q p) Z false a b := by
  show (if a = b then _ else ratesDiagZeroed s a b) = _
  rw [if_neg hab]
  show (if a = b then _ else ratesAcc s a b) = _
  rw [if_neg hab]
  rfl

/-- C7: the correlation tensor retained by `_calc_redfield_tensor` as instance
state (`self.GammF`, the side artifact later consumed by the dephasing
calculator, modelled as the second component of the result) is the
accumulation `Γ[a,b,c,d] = Σ_Z 0.5·Σ_{i∈mask(Z)} X[i,a,b]·X[i,c,d]·Cw_Z[b,a]`
with `Cw_Z` the evaluator output `specden(Om.T, Z, imag=true)`. -/
theorem GammF_accumulation_formula {n : ℕ} (s : RedfieldState n)
    (a b c d : Fin n) :
    (calc_redfield_tensor s).2 a b c d =
      ∑ Z ∈ Finset.image s.SD_id Finset.univ,
        CQ.ofQ (1 / 2) *
          ∑ i ∈ Finset.univ.filter (fun i => s.SD_id i = Z),
            CQ.ofQ (s.X i a b) * CQ.ofQ (s.X i c d) *
              s.specden (fun p q => s.Om q p) Z true b a := by
  have h2 : (calc_redfield_tensor s).2 = calc_GammF s := rfl
  rw [h2]
  refine Finset.sum_congr rfl fun Z _ => ?_
  rw [Finset.mul_sum]
  refine Finset.sum_congr rfl fun i _ => ?_
  show CQ.ofQ (s.X i a b) * CQ.ofQ (s.X i c d) * (CwI s Z b a * CQ.ofQ (1 / 2)) = _
  unfold CwI OmT
  ring

/-! Helper lemmas for the dephasing-path equivalence and the Hermiticity
invariant. -/

theorem gammContrib_diag_eq_half_gpop {n : ℕ} (s : RedfieldState n) (Z : ℕ) (a : Fin n) :
    gammContrib s Z a a a a = CQ.ofQ (1 / 2) * gpopContrib s Z a := by
  unfold gammContrib gpopContrib
  rw [Finset.mul_sum]
  exact Finset.sum_congr rfl fun i _ => by ring

theorem gammContrib_abba_eq_half_gcoh {n : ℕ} (s : RedfieldState n) (Z : ℕ) (a b : Fin n) :
    gammContrib s Z a b b a = CQ.ofQ (1 / 2) * gcohContrib s Z a b := by
  unfold gammContrib gcohContrib
  rw [Finset.mul_sum]
  exact Finset.sum_congr rfl fun i _ => by ring

theorem sdIds_nonempty {n : ℕ} (s : RedfieldState n) (hn : 0 < n) : (sdIds s).Nonempty :=
  ⟨s.SD_id ⟨0, hn⟩, Finset.mem_image_of_mem _ (Finset.mem_univ _)⟩

/-- C2: on identical inputs, the reduced dephasing path of
`_calc_redfield_dephasing` (case 2, no cached tensor) returns exactly the
vector the full-tensor path (case 1) computes from the `Γ` that
`_calc_redfield_tensor` would cache, namely
`dephasing[a] = −(Γ[a,a,a,a] − Σ_b Γ[a,b,b,a]) = −0.5·(G_pop[a] − Σ_b G_coh[a,b])`. -/
theorem dephasing_paths_agree {n : ℕ} (s : RedfieldState n) (hn : 0 < n) :
    dephasing_reduced s = some (dephasing_from_GammF (calc_GammF s)) := by
  have hne : (sdIds s).Nonempty := sdIds_nonempty s hn
  unfold dephasing_reduced
  rw [if_pos hne]
  refine congrArg some (funext fun a => ?_)
  show -(CQ.ofQ (1 / 2) *
      ((∑ Z ∈ sdIds s, gpopContrib s Z a) - ∑ b, ∑ Z ∈ sdIds s, gcohContrib s Z a b))
    = dephasing_from_GammF (calc_GammF s) a
  unfold dephasing_from_GammF calc_GammF
  have e1 : ∑ Z ∈ sdIds s, gammContrib s Z a a a a
      = CQ.ofQ (1 / 2) * ∑ Z ∈ sdIds s, gpopContrib s Z a := by
    rw [Finset.mul_sum]
    exact Finset.sum_congr rfl fun Z _ => gammContrib_diag_eq_half_gpop s Z a
  have e2 : ∑ b, ∑ Z ∈ sdIds s, gammContrib s Z a b b a
      = CQ.ofQ (1 / 2) * ∑ b, ∑ Z ∈ sdIds s, gcohContrib s Z a b := by
    rw [Finset.mul_sum]
    refine Finset.sum_congr rfl fun b _ => ?_
    rw [Finset.mul_sum]
    exact Finset.sum_congr rfl fun Z _ => gammContrib_abba_eq_half_gcoh s Z a b
  rw [e1, e2, ← mul_sub]

theorem conj_eyeC {n : ℕ} (a b : Fin n) : CQ.conj (eyeC a b) = eyeC a b := by
  unfold eyeC
  split_ifs
  · exact CQ.conj_one
  · exact CQ.conj_zero

theorem calc_GammF_swap_last {n : ℕ} (s : RedfieldState n)
    (hX : ∀ i a b, s.X i a b = s.X i b a) (p q r t : Fin n) :
    calc_GammF s p q r t = calc_GammF s p q t r := by
  unfold calc_GammF gammContrib
  refine Finset.sum_congr rfl fun Z _ => Finset.sum_congr rfl fun i _ => ?_
  rw [hX i r t]

theorem from_GammaF_hermitian {n : ℕ} (G : Tensor4 n)
    (hG : ∀ p q r t, G p q r t = G p q t r) (a b c d : Fin n) :
    from_GammaF_to_RTen G a b c d = CQ.conj (from_GammaF_to_RTen G b a d c) := by
  unfold from_GammaF_to_RTen
  simp only [CQ.conj_sub, CQ.conj_add, CQ.conj_mul, CQ.conj_conj, conj_eyeC]
  rw [hG c a b d, hG d b c a]
  ring

/-- C3: for every input with symmetric projector tensor `X` (and the data-model
invariant of §3 that the gap matrix `Om` is antisymmetric, which the secular
branch needs), the relaxation tensor returned by `_calc_redfield_tensor`
satisfies `R_full[a,b,c,d] = conj(R_full[b,a,d,c])`. -/
theorem tensor_hermiticity {n : ℕ} (s : RedfieldState n) (_hn : 1 ≤ n)
    (hX : ∀ i a b, s.X i a b = s.X i b a)
    (hOm : ∀ a b, s.Om a b = -s.Om b a) (a b c d : Fin n) :
    (calc_redfield_tensor s).1 a b c d = CQ.conj ((calc_redfield_tensor s).1 b a d c) := by
  have hG : ∀ p q r t, calc_GammF s p q r t = calc_GammF s p q t r :=
    calc_GammF_swap_last s hX
  have key := from_GammaF_hermitian (calc_GammF s) hG
  have h1 : (calc_redfield_tensor s).1
      = (if s.secularize then secularFiltered s (from_GammaF_to_RTen (calc_GammF s))
          else from_GammaF_to_RTen (calc_GammF s)) := rfl
  rw [h1]
  by_cases hsec : s.secularize
  · rw [if_pos hsec]
    unfold secularFiltered
    have hiff : (s.Om b a - s.Om d c = 0) ↔ (s.Om a b - s.Om c d = 0) := by
      rw [hOm b a, hOm d c]
      constructor <;> intro h <;> linarith
    by_cases h : s.Om a b - s.Om c d = 0
    · rw [if_pos h, if_pos (hiff.mpr h)]
      exact key a b c d
    · rw [if_neg h, if_neg (fun hc => h (hiff.mp hc))]
      exact CQ.conj_zero.symm
  · rw [if_neg hsec]
    exact key a b c d

theorem dephasing_total {n : ℕ} (s : RedfieldState n) (cachedG : Option (Tensor4 n))
    (hn : 0 < n) :
    ∃ d, calc_redfield_dephasing s cachedG = some d ∧
      (∀ G, cachedG = some G → d = dephasing_from_GammF G) ∧
      (cachedG = none → dephasing_reduced s = some d) := by
  cases cachedG with
  | some G =>
    exact ⟨dephasing_from_GammF G, rfl, fun G' h => by cases h; rfl, fun h => nomatch h⟩
  | none =>
    have hne := sdIds_nonempty s hn
    obtain ⟨v, hv⟩ : ∃ v, dephasing_reduced s = some v := by
      unfold dephasing_reduced
      rw [if_pos hne]
      exact ⟨_, rfl⟩
    refine ⟨v, hv, ?_, ?_⟩
    · intro G' h
      exact Option.noConfusion h
    · intro _
      exact hv

/-- C8: whenever the instance is validly constructed (`dim ≥ 1`, §4.2),
`_calc_redfield_dephasing` returns a vector on every call through exactly one
of its two branches — the full-tensor branch when `self.GammF` is cached, the
reduced branch otherwise — and never fails for lack of the cached tensor. -/
theorem dephasing_never_fails {n : ℕ} (s : RedfieldState n)
    (cachedG : Option (Tensor4 n)) (hn : 0 < n) :
    ∃ d, calc_redfield_dephasing s cachedG = some d ∧
      (∀ G, cachedG = some G → d = dephasing_from_GammF G) ∧
      (cachedG = none → dephasing_reduced s = some d) :=
  dephasing_total s cachedG hn

/-- C9: for every time grid (the empty and single-element grids included),
`calc_redf_xi` returns the outer product `xi[a,t] = dephasing[a]·t`, reusing
the cached dephasing vector when present and computing (and caching, the only
mutation) it via `_calc_redfield_dephasing` otherwise. -/
theorem xi_outer_product {n m : ℕ} (s : RedfieldState n)
    (cachedG : Option (Tensor4 n)) (cachedD : Option (CVec n))
    (time : Fin m → ℚ) (hn : 0 < n) :
    ∃ d xi, calc_redf_xi s cachedG cachedD time = some (d, xi) ∧
      (∀ a t, xi a t = d a * CQ.ofQ (time t)) ∧
      (∀ d0, cachedD = some d0 → d = d0) ∧
      (cachedD = none → calc_redfield_dephasing s cachedG = some d) := by
  cases cachedD with
  | some d =>
    exact ⟨d, fun a t => d a * CQ.ofQ (time t), rfl, fun a t => rfl,
      fun d0 h => by cases h; rfl, fun h => nomatch h⟩
  | none =>
    obtain ⟨d, hd, -, -⟩ := dephasing_total s cachedG hn
    refine ⟨d, fun a t => d a * CQ.ofQ (time t), ?_, fun a t => rfl, ?_, fun _ => hd⟩
    · show (match calc_redfield_dephasing s cachedG with
        | some d => some (d, fun a t => d a * CQ.ofQ (time t))
        | none => none) = _
      rw [hd]
    · intro d0 h
      exact Option.noConfusion h

/-- C10: the reduced branch of `_calc_redfield_dephasing` is total exactly for
non-empty `SD_id_list`: its accumulators are first bound at loop index 0, so
with zero sites the loop body never runs and the branch fails
(`UnboundLocalError`, modelled as `none`) instead of returning a vector. -/
theorem reduced_dephasing_total_iff_sites {n : ℕ} (s : RedfieldState n) :
    (dephasing_reduced s).isSome = true ↔ 0 < n := by
  unfold dephasing_reduced
  by_cases h : (sdIds s).Nonempty
  · rw [if_pos h]
    constructor
    · intro _
      obtain ⟨Z, hZ⟩ := h
      obtain ⟨i, -, -⟩ := Finset.mem_image.mp hZ
      exact i.pos
    · intro _
      rfl
  · rw [if_neg h]
    constructor
    · intro hfalse
      simp at hfalse
    · intro hn
      exact absurd (sdIds_nonempty s hn) h

/-! Concrete instances used by the test-scenario claim and as witnesses that
the hypotheses of the theorems above are satisfiable. -/

/-- Scenario A of §8: two sites, diagonal Hamiltonian with energies 0 and 100
(`Om[a,b] = E_a − E_b`), identity eigenvector matrix `U = I` (hence
`X[i,a,b] = δ(i,a)·δ(i,b)`), one shared spectral-density id for both sites,
no secularization; the evaluator is left arbitrary. -/
def scenarioA (sd : (Fin 2 → Fin 2 → ℚ) → ℕ → Bool → (Fin 2 → Fin 2 → CQ)) :
    RedfieldState 2 where
  U := fun i a => if i = a then 1 else 0
  X := fun i a b => (if i = a then (1 : ℚ) else 0) * (if i = b then (1 : ℚ) else 0)
  Om := fun a b => (if a = 0 then (0 : ℚ) else 100) - (if b = 0 then (0 : ℚ) else 100)
  SD_id := fun _ => 0
  specden := sd
  secularize := false

/-- The elementwise-identity evaluator `J(w) = w`: its real-part output at gap
100 is 100 (and is non-zero, unlike the computed rate). -/
def specdenLin : (Fin 2 → Fin 2 → ℚ) → ℕ → Bool → (Fin 2 → Fin 2 → CQ) :=
  fun M _ _ a b => ⟨M a b, 0⟩

/-- C6 counterexample: in Scenario A with the elementwise-identity evaluator,
the evaluator's real-part output at gap 100 (= `Om.T[0,1]`) is 100, yet
`rate[1,0]` computed by `_calc_redfield_rates` is not 100 (it is 0): the claim
`rate[1,0] = Cw(100)` fails. -/
theorem scenarioA_rate_ne_Cw100 :
    specdenLin (RedfieldState.OmT (scenarioA specdenLin)) 0 false 0 1 = CQ.ofQ 100 ∧
    RedfieldState.calc_redfield_rates (scenarioA specdenLin) 1 0 ≠ CQ.ofQ 100 := by
  with_unfolding_all decide

/-- C6 amended: in Scenario A the off-diagonal weight
`Σ_i U[i,1]²·U[i,0]²` vanishes for `U = I`, so `rate[1,0] = 0` for every
evaluator, and `rate[0,0] = −rate[1,0]` (both are 0). -/
theorem scenarioA_rates (sd : (Fin 2 → Fin 2 → ℚ) → ℕ → Bool → (Fin 2 → Fin 2 → CQ)) :
    RedfieldState.calc_redfield_rates (scenarioA sd) 1 0 = 0 ∧
    RedfieldState.calc_redfield_rates (scenarioA sd) 0 0 =
      -(RedfieldState.calc_redfield_rates (scenarioA sd) 1 0) := by
  have h10 : ¬((1 : Fin 2) = 0) := by decide
  have hU : ∀ i : Fin 2,
      (if i = (1 : Fin 2) then (1 : ℚ) else 0) ^ 2 *
        (if i = (0 : Fin 2) then (1 : ℚ) else 0) ^ 2 = 0 := by
    with_unfolding_all decide
  have hcoef : ∀ i a : Fin 2,
      coef2 (scenarioA sd) i a = (if i = a then (1 : ℚ) else 0) ^ 2 := fun i a => rfl
  have hz : ∀ i : Fin 2,
      CQ.ofQ (coef2 (scenarioA sd) i 1) * CQ.ofQ (coef2 (scenarioA sd) i 0) = 0 := by
    intro i
    rw [hcoef, hcoef, ← CQ.ofQ_mul, hU i, CQ.ofQ_zero]
  have hacc : ratesAcc (scenarioA sd) 1 0 = 0 := by
    unfold ratesAcc
    refine Finset.sum_eq_zero fun Z _ => Finset.sum_eq_zero fun i _ => ?_
    rw [hz i, zero_mul]
  constructor
  · show (if (1 : Fin 2) = 0 then _ else ratesDiagZeroed (scenarioA sd) 1 0) = 0
    rw [if_neg h10]
    show (if (1 : Fin 2) = 0 then _ else ratesAcc (scenarioA sd) 1 0) = 0
    rw [if_neg h10]
    exact hacc
  · show (if (0 : Fin 2) = 0 then -(∑ c, ratesDiagZeroed (scenarioA sd) c 0) else _) = _
    rw [if_pos rfl, Fin.sum_univ_two]
    show -(ratesDiagZeroed (scenarioA sd) 0 0 + ratesDiagZeroed (scenarioA sd) 1 0)
      = -(if (1 : Fin 2) = 0 then _ else ratesDiagZeroed (scenarioA sd) 1 0)
    rw [if_neg h10]
    show -((if (0 : Fin 2) = 0 then 0 else _) + ratesDiagZeroed (scenarioA sd) 1 0) = _
    rw [if_pos rfl, zero_add]

/-- A nontrivial two-site instance: non-identity `U`, symmetric `X = U ⊗ U`,
antisymmetric gap matrix, two distinct spectral-density ids, secularization
on, and an evaluator with non-zero real and imaginary outputs. -/
def S2 : RedfieldState 2 where
  U := fun i a => (i.val : ℚ) + 2 * (a.val : ℚ) + 1
  X := fun i a b =>
    ((i.val : ℚ) + 2 * (a.val : ℚ) + 1) * ((i.val : ℚ) + 2 * (b.val : ℚ) + 1)
  Om := fun a b => (a.val : ℚ) - (b.val : ℚ)
  SD_id := fun i => i.val
  specden := fun M Z flag a b => ⟨M a b + Z, if flag then M a b * M a b + 1 else 0⟩
  secularize := true

/-- Witness for C2: the hypotheses of `dephasing_paths_agree` hold at the
concrete instance `S2`. -/
theorem dephasing_paths_agree_witness :
    (0 : ℕ) < 2 ∧
    dephasing_reduced S2 = some (dephasing_from_GammF (calc_GammF S2)) :=
  ⟨by decide, dephasing_paths_agree S2 (by decide)⟩

/-- Witness for C3: the hypotheses of `tensor_hermiticity` hold at the
concrete instance `S2`. -/
theorem tensor_hermiticity_witness :
    (calc_redfield_tensor S2).1 0 1 0 1 =
      CQ.conj ((calc_redfield_tensor S2).1 1 0 1 0) :=
  tensor_hermiticity S2 (by decide) (by with_unfolding_all decide)
    (by with_unfolding_all decide) 0 1 0 1

/-- Witness for C5: the off-diagonal hypothesis of
`rates_accumulation_formula` holds at the concrete instance `S2`. -/
theorem rates_accumulation_formula_witness :
    (0 : Fin 2) ≠ 1 ∧
    calc_redfield_rates S2 0 1 =
      ∑ Z ∈ Finset.image S2.SD_id Finset.univ,
        ∑ i ∈ Finset.univ.filter (fun i => S2.SD_id i = Z),
          CQ.ofQ ((S2.U i 0) ^ 2) * CQ.ofQ ((S2.U i 1) ^ 2) *
            S2.specden (fun p q => S2.Om q p) Z false 0 1 :=
  ⟨by decide, rates_accumulation_formula S2 0 1 (by decide)⟩

/-- Witness for C8: `dephasing_never_fails` applies at the concrete instance
`S2` with no cached tensor. -/
theorem dephasing_never_fails_witness :
    (calc_redfield_dephasing S2 none).isSome = true := by
  obtain ⟨d, hd, -, -⟩ := dephasing_never_fails S2 none (by decide)
  rw [hd]
  rfl

/-- Witness for C9: `xi_outer_product` applies at the concrete instance `S2`
with the empty time grid. -/
theorem xi_outer_product_witness :
    (calc_redf_xi S2 none none (fun _ : Fin 0 => (0 : ℚ))).isSome = true := by
  obtain ⟨d, xi, h, -, -, -⟩ := xi_outer_product S2 none none (fun _ => 0) (by decide)
  rw [h]
  rfl
